import Mathlib

/-!
Verification of `a2m.itertools` (flatten engine and streaming splitter).

The Python source is shallowly embedded: strings become `List Char`,
dynamically typed arguments become the inductive `PyVal`, generator bodies
become recursive functions returning the list of all yielded fields, and
raised exceptions become explicit error values.  The generator object
itself (which runs no body code at construction time) is modelled as a
structure that merely stores the call arguments.
-/

namespace A2M

/-- Python exception kinds relevant to this library. -/
inductive PyErr where
  | typeError
  | valueError
  | other
deriving DecidableEq

/-- A dynamically typed Python value as passed to `isplit`:
`none`, a text value, an integer, or any other object. -/
inductive PyVal where
  | none
  | str (s : List Char)
  | int (n : Int)
  | other
deriving DecidableEq

/-- Model of Python's `str.isspace` for a single character, restricted to the
ASCII whitespace characters (space, tab, newline, carriage return, vertical
tab, form feed).  Both the splitter and the eager reference split use this
same predicate, so every statement below is independent of the exact set. -/
def isspace (c : Char) : Bool :=
  c = ' ' || c = '\t' || c = '\n' || c = '\r' || c = '\x0b' || c = '\x0c'

/-- Whitespace mode of `isplit` (source lines 262–276): the `for char in it`
loop with accumulator `chunk` and counter `splitcount`.  The
`chunk.append(char); chunk.extend(it); continue` branch drains the iterator,
so the loop is re-entered with an exhausted source and falls through to the
`else` clause. -/
def wsLoop (ms : Int) : List Char → List Char → Int → List (List Char)
  | [], chunk, _ => if chunk.isEmpty then [] else [chunk]
  | c :: rest, chunk, sc =>
    if !(isspace c) then
      wsLoop ms rest (chunk ++ [c]) sc
    else if !chunk.isEmpty then
      if sc = ms then
        wsLoop ms [] (chunk ++ c :: rest) sc
      else
        chunk :: wsLoop ms rest [] (sc + 1)
    else
      wsLoop ms rest chunk sc
termination_by l c s => l.length
decreasing_by all_goals simp

/-- A `collections.deque` of characters with a maximum length. -/
structure Deque where
  elems : List Char
  maxlen : Nat
deriving DecidableEq

/-- `deque.append`: when the deque is already at `maxlen`, the leftmost
element is silently discarded. -/
def dequeAppend (d : Deque) (c : Char) : Deque :=
  if d.elems.length = d.maxlen then ⟨d.elems.tail ++ [c], d.maxlen⟩
  else ⟨d.elems ++ [c], d.maxlen⟩

/-- One read of the literal-separator scan (source lines 288–290):
`window.append(char)` followed by
`if len(window) == window.maxlen: chunk.append(window.popleft())`.
Returns the updated accumulator and window. -/
def sepIngest (window : Deque) (chunk : List Char) (c : Char) : List Char × Deque :=
  let w := dequeAppend window c
  if w.elems.length = w.maxlen then (chunk ++ w.elems.take 1, ⟨w.elems.tail, w.maxlen⟩)
  else (chunk, w)

/-- Literal-separator mode of `isplit` (source lines 284–302).  The
`window = window_tuple + tuple(it); continue` branch drains the iterator,
re-entering the loop with an exhausted source, which then falls through to
the `else` clause `chunk.extend(window); yield joined(chunk)`. -/
def sepLoop (sep : List Char) (ms : Int) : List Char → List Char → Deque → Int → List (List Char)
  | [], chunk, window, _ => [chunk ++ window.elems]
  | c :: rest, chunk, window, sc =>
    let cw := sepIngest window chunk c
    if cw.2.elems = sep then
      if sc = ms then
        sepLoop sep ms [] cw.1 ⟨cw.2.elems ++ rest, cw.2.maxlen⟩ sc
      else
        cw.1 :: sepLoop sep ms rest [] ⟨[], cw.2.maxlen⟩ (sc + 1)
    else
      sepLoop sep ms rest cw.1 cw.2 sc
termination_by l c w s => l.length
decreasing_by all_goals simp

/-- Mode dispatch on `sep` (source lines 262, 278–286): `None` selects
whitespace mode, a non-string raises `TypeError`, an empty string raises
`ValueError`, and otherwise literal-separator mode runs with a fresh
window of maximum length `len(sep) + 1`. -/
def isplitBody (t : List Char) (sep : PyVal) (ms : Int) : Except PyErr (List (List Char)) :=
  match sep with
  | PyVal.none => .ok (wsLoop ms t [] 0)
  | PyVal.str s =>
    if s.isEmpty then .error .valueError
    else .ok (sepLoop s ms t [] ⟨[], s.length + 1⟩ 0)
  | _ => .error .typeError

/-- The body of the `isplit` generator (source lines 249–302), i.e. what
executes once the consumer first demands an element: validate `text`
(lines 249–250), normalise and validate `maxsplit` (lines 252–255), then
run the selected splitting mode. -/
def isplit (text sep maxsplit : PyVal) : Except PyErr (List (List Char)) :=
  match text with
  | PyVal.str t =>
    match maxsplit with
    | PyVal.none => isplitBody t sep (-1)
    | PyVal.int n => isplitBody t sep n
    | _ => .error .typeError
  | _ => .error .typeError

/-- A generator object returned by calling `isplit(...)`: the call runs no
body code, it only captures the arguments. -/
structure ISplitGen where
  text : PyVal
  sep : PyVal
  maxsplit : PyVal
deriving DecidableEq

/-- Calling the generator function: constructs the generator object and
nothing else; in particular no validation runs and no error can be raised. -/
def isplitCall (text sep maxsplit : PyVal) : ISplitGen := ⟨text, sep, maxsplit⟩

/-- First demand on the generator: only now does the body execute. -/
def isplitFirstPull (g : ISplitGen) : Except PyErr (List (List Char)) :=
  isplit g.text g.sep g.maxsplit

/-! ### The eager reference split (spec side)

The specification (§4.2, §8) demands that `isplit` reproduce, field for
field, the eager "split with optional delimiter and optional maximum split
count" operation (`str.split`).  The following definitions state that eager
operation following the specification's words; they are deliberately written
as straightforward recursions over the text, not as translations of the
streaming code above. -/

/-- Leftmost occurrence of `sep` in `t`: returns the part strictly before
the occurrence and the part strictly after it, or `none` when `sep` does
not occur in `t`. -/
def findSplit (sep : List Char) : List Char → Option (List Char × List Char)
  | [] => Option.none
  | c :: rest =>
    if sep.isPrefixOf (c :: rest) then some ([], (c :: rest).drop sep.length)
    else
      match findSplit sep rest with
      | some (pre, post) => some (c :: pre, post)
      | Option.none => Option.none

theorem findSplit_post_lt (sep : List Char) (hs : sep ≠ []) :
    ∀ t pre post, findSplit sep t = some (pre, post) → post.length < t.length := by
  intro t
  induction t with
  | nil => intro pre post h; simp [findSplit] at h
  | cons c rest ih =>
    intro pre post h
    rw [findSplit] at h
    by_cases hp : sep.isPrefixOf (c :: rest)
    · rw [if_pos hp] at h
      injection h with h
      injection h with h1 h2
      subst h2
      have hlen : 1 ≤ sep.length := by
        cases sep with
        | nil => exact absurd rfl hs
        | cons a b => simp
      simp only [List.length_drop, List.length_cons]
      omega
    · rw [if_neg hp] at h
      cases hm : findSplit sep rest with
      | none => rw [hm] at h; exact absurd h (by simp)
      | some pp =>
        obtain ⟨pre', post'⟩ := pp
        rw [hm] at h
        injection h with h
        injection h with h1 h2
        subst h2
        have := ih pre' post' hm
        simp only [List.length_cons]
        omega

/-- Eager whitespace-mode split, following §4.2 of the specification: drop
leading whitespace; if nothing remains, no fields; if the split budget is
exhausted (`n = 0`), the whole remainder (trailing whitespace included) is
the final field; otherwise the next field is the maximal run of
non-whitespace characters, and splitting continues after it.  A negative
`n` never reaches `0`, hence means unlimited. -/
def specSplitWs (n : Int) (t : List Char) : List (List Char) :=
  if hr : t.dropWhile isspace = [] then []
  else if n = 0 then [t.dropWhile isspace]
  else
    (t.dropWhile isspace).takeWhile (fun x => !(isspace x)) ::
      specSplitWs (n - 1) ((t.dropWhile isspace).dropWhile (fun x => !(isspace x)))
termination_by t.length
decreasing_by
  have hle : (t.dropWhile isspace).length ≤ t.length :=
    (List.dropWhile_sublist isspace).length_le
  have hpos : 0 < (t.dropWhile isspace).length := List.length_pos.mpr hr
  have hhead : isspace ((t.dropWhile isspace).head hr) = false :=
    List.head_dropWhile_not isspace t hr
  have hcons : (t.dropWhile isspace).head hr :: (t.dropWhile isspace).tail
      = t.dropWhile isspace := List.head_cons_tail _ hr
  have h2 : ((t.dropWhile isspace).dropWhile fun x => !(isspace x)).length
      ≤ (t.dropWhile isspace).tail.length := by
    conv_lhs => rw [← hcons]
    rw [List.dropWhile_cons_of_pos (by simp [hhead])]
    exact (List.dropWhile_sublist _).length_le
  have h3 : (t.dropWhile isspace).tail.length = (t.dropWhile isspace).length - 1 :=
    List.length_tail _
  omega

/-- Eager literal-separator split, following §4.2 of the specification:
split at the leftmost occurrence of the separator, at most `n` times; a
negative `n` never reaches `0`, hence means unlimited.  (The specification
requires a non-empty separator; for an empty one this reference definition
simply returns the whole text as one field.) -/
def specSplitSep (sep : List Char) (n : Int) (t : List Char) : List (List Char) :=
  if sep.isEmpty ∨ n = 0 then [t]
  else if hf : (findSplit sep t).isSome then
    ((findSplit sep t).get hf).1 ::
      specSplitSep sep (n - 1) ((findSplit sep t).get hf).2
  else [t]
termination_by t.length
decreasing_by
  refine findSplit_post_lt sep ?_ t ((findSplit sep t).get hf).1 ((findSplit sep t).get hf).2 ?_
  · rename_i hng
    intro hnil
    exact hng (Or.inl (by simp [hnil]))
  · rw [Option.some_get hf]

/-- Eager split with optional separator (§8: "split with at most N
occurrences of D (or whitespace runs if D is none)"). -/
def specSplit : Option (List Char) → Int → List Char → List (List Char)
  | Option.none, n, t => specSplitWs n t
  | some s, n, t => specSplitSep s n t

/-! ### The flatten engine

A Python object fed to `flatten` is modelled by `PyObj`: an opaque
non-iterable scalar, a text value (iterable, but `flatten` always protects
it), or an iterable collection of objects.  The two protection arguments of
`flatten(thing, protected_iterables=(), enforce_scalar=None)` are modelled
by a membership test `pt` for the caller-supplied protected types and a
function `es` for `enforce_scalar`; since a non-callable `enforce_scalar`
short-circuits (`callable(enforce_scalar) and ...` is false), passing
`fun x => PredResult.val false` models `enforce_scalar=None` exactly.
`es` may also raise: `raiseTV` stands for raising `TypeError` or
`ValueError` (the kinds the source catches), `raiseOther` for any other
exception kind. -/

/-- A (possibly nested) Python value passed to `flatten`. -/
inductive PyObj where
  | atom (id : Nat)
  | strv (s : List Char)
  | coll (items : List PyObj)

/-- What a call to `enforce_scalar` does: return a boolean, raise a
`TypeError`/`ValueError`, or raise an exception of another kind. -/
inductive PredResult where
  | val (b : Bool)
  | raiseTV
  | raiseOther
deriving DecidableEq

/-- Outcome of the `try` block of `flatten` (source lines 100–108) for one
pulled value: emit it as a scalar (the `except (TypeError, ValueError)`
path), descend into its iterator (the `else` path), or let a foreign
exception propagate out of the generator. -/
inductive StepAct where
  | emit
  | descend (items : List PyObj)
  | raiseExc

/-- `isinstance(thing, six.string_types)`. -/
def isStr : PyObj → Bool
  | .strv _ => true
  | _ => false

/-- One decision of the flatten loop (source lines 100–108):
`protected_iterables` always contains the string types (line 90), the
membership test short-circuits before `enforce_scalar` is called, a true
result or a `TypeError`/`ValueError` from the predicate leads to the value
being yielded, and otherwise `iter(thing)` decides: scalars raise a caught
`TypeError`, iterables are descended into. -/
def classify (pt : PyObj → Bool) (es : PyObj → PredResult) (v : PyObj) : StepAct :=
  if isStr v || pt v then .emit
  else
    match es v with
    | .raiseTV => .emit
    | .raiseOther => .raiseExc
    | .val true => .emit
    | .val false =>
      match v with
      | .coll xs => .descend xs
      | _ => .emit

theorem classify_descend {pt es v xs} (h : classify pt es v = StepAct.descend xs) :
    v = PyObj.coll xs := by
  unfold classify at h
  by_cases h0 : isStr v || pt v
  · rw [if_pos h0] at h; exact absurd h (by simp)
  · rw [if_neg h0] at h
    cases hes : es v with
    | val b =>
      rw [hes] at h
      cases b with
      | true => exact absurd h (by simp)
      | false =>
        cases v with
        | atom i => exact absurd h (by simp)
        | strv s => exact absurd h (by simp)
        | coll ys => simp only [StepAct.descend.injEq] at h; rw [h]
    | raiseTV => rw [hes] at h; exact absurd h (by simp)
    | raiseOther => rw [hes] at h; exact absurd h (by simp)

/-- The main loop of `flatten` (source lines 88–111): `iterators` is the
stack of suspended iterators, the second argument is the current iterator.
The result is the list of yielded values paired with the exception that
terminated the sequence, if any (only a foreign exception from
`enforce_scalar` can do that here). -/
def flattenLoop (pt : PyObj → Bool) (es : PyObj → PredResult) :
    List (List PyObj) → List PyObj → List PyObj × Option PyErr
  | stack, [] =>
    match stack with
    | [] => ([], Option.none)
    | it :: stack' => flattenLoop pt es stack' it
  | stack, thing :: it =>
    match hc : classify pt es thing with
    | .emit =>
      let r := flattenLoop pt es stack it
      (thing :: r.1, r.2)
    | .raiseExc => ([], some .other)
    | .descend xs => flattenLoop pt es (it :: stack) xs
termination_by stack cur => sizeOf stack + sizeOf cur
decreasing_by
  · simp; omega
  · simp
  · have := classify_descend hc
    subst this
    simp
    omega

/-- The whole `flatten` generator body: `it = iter(thing)` (source line 89)
runs on first demand; a non-iterable argument raises `TypeError` there,
iterating a string yields its characters as one-character strings, and a
collection yields its items. -/
def flatten (pt : PyObj → Bool) (es : PyObj → PredResult) (thing : PyObj) :
    List PyObj × Option PyErr :=
  match thing with
  | .atom _ => ([], some .typeError)
  | .strv s => flattenLoop pt es [] (s.map fun ch => PyObj.strv [ch])
  | .coll xs => flattenLoop pt es [] xs

/-- A generator object returned by calling `flatten(...)`: the call runs no
body code, it only captures the arguments. -/
structure FlattenGen where
  pt : PyObj → Bool
  es : PyObj → PredResult
  thing : PyObj

/-- Calling the generator function: constructs the generator object and
nothing else; no error can be raised here. -/
def flattenCall (pt : PyObj → Bool) (es : PyObj → PredResult) (thing : PyObj) : FlattenGen :=
  ⟨pt, es, thing⟩

/-- First demand on the generator: only now does the body execute. -/
def flattenFirstPull (g : FlattenGen) : List PyObj × Option PyErr :=
  flatten g.pt g.es g.thing

/-! ### Depth-first reading order (spec side)

§4.1: the output of `flatten` must equal the sequence of atomic values
read from the nested structure in strict left-to-right, depth-first order,
where a value is atomic exactly when the protection chain does not descend
into it. -/

/-- A value is atomic (emitted as-is) when the protection chain does not
select descent for it. -/
def isAtomic (pt : PyObj → Bool) (es : PyObj → PredResult) (v : PyObj) : Bool :=
  match classify pt es v with
  | .descend _ => false
  | _ => true

mutual

/-- Left-to-right depth-first reading of the atomic values of one value. -/
def dfsLeaves (pt : PyObj → Bool) (es : PyObj → PredResult) : PyObj → List PyObj
  | .coll xs => if isAtomic pt es (.coll xs) then [.coll xs] else dfsList pt es xs
  | v => [v]

/-- Left-to-right depth-first reading of the atomic values of a sequence. -/
def dfsList (pt : PyObj → Bool) (es : PyObj → PredResult) : List PyObj → List PyObj
  | [] => []
  | v :: vs => dfsLeaves pt es v ++ dfsList pt es vs

end

/-! ### The literal-separator scan as a step relation

To speak about "every step of the scan" (the window-size invariant of §3),
the states of the literal-separator loop are made explicit.  A state holds
the unread input, the accumulator, the deque window and the split counter;
one step consumes a character exactly as one iteration of the loop in
`sepLoop` does while the window is still the deque (the `splitcount ==
maxsplit` branch replaces the deque with a plain tuple and drains the
input, ending scanning). -/

structure SepState where
  rest : List Char
  chunk : List Char
  window : Deque
  sc : Int

/-- One scanning iteration of the literal-separator loop, mirroring the
recursive calls of `sepLoop`: `scan` when the (post-eviction) window does
not equal the separator, `emit` when it does and a split is still
allowed. -/
inductive SepStepRel (sep : List Char) (ms : Int) : SepState → SepState → Prop where
  | scan (c : Char) (rest chunk : List Char) (window : Deque) (sc : Int) :
      (sepIngest window chunk c).2.elems ≠ sep →
      SepStepRel sep ms ⟨c :: rest, chunk, window, sc⟩
        ⟨rest, (sepIngest window chunk c).1, (sepIngest window chunk c).2, sc⟩
  | emit (c : Char) (rest chunk : List Char) (window : Deque) (sc : Int) :
      (sepIngest window chunk c).2.elems = sep → sc ≠ ms →
      SepStepRel sep ms ⟨c :: rest, chunk, window, sc⟩
        ⟨rest, [], ⟨[], (sepIngest window chunk c).2.maxlen⟩, sc + 1⟩

/-! ### Small helpers for the statements -/

/-- Prepend pending accumulator contents to the first of the remaining
fields (used to relate a mid-scan state of the splitter to the eager
split of the unread input). -/
def consHd (chunk : List Char) : List (List Char) → List (List Char)
  | [] => []
  | f :: fs => (chunk ++ f) :: fs

/-- An optional separator argument as the Python value passed to `isplit`. -/
def pySep : Option (List Char) → PyVal
  | Option.none => PyVal.none
  | some s => PyVal.str s

/-- An optional max-splits argument as the Python value passed to `isplit`. -/
def pyMax : Option Int → PyVal
  | Option.none => PyVal.none
  | some k => PyVal.int k

/-- The internal split limit: an omitted `maxsplit` becomes `-1`
(source lines 252–253). -/
def msOf : Option Int → Int
  | Option.none => -1
  | some k => k

/-- Depth-first reading of the atomic values of a whole iterator stack. -/
def dfsStack (pt : PyObj → Bool) (es : PyObj → PredResult) : List (List PyObj) → List PyObj
  | [] => []
  | it :: stack => dfsList pt es it ++ dfsStack pt es stack

/-! ## Theorems -/

theorem classify_strv (pt : PyObj → Bool) (es : PyObj → PredResult) (s : List Char) :
    classify pt es (.strv s) = .emit := by
  simp [classify, isStr]

theorem classify_raiseExc_inv {pt : PyObj → Bool} {es : PyObj → PredResult} {v : PyObj}
    (h : classify pt es v = .raiseExc) : es v = .raiseOther := by
  unfold classify at h
  by_cases h0 : isStr v || pt v
  · rw [if_pos h0] at h; exact absurd h (by simp)
  · rw [if_neg h0] at h
    cases hes : es v with
    | val b =>
      rw [hes] at h
      cases b with
      | true => exact absurd h (by simp)
      | false => cases v <;> exact absurd h (by simp)
    | raiseTV => rw [hes] at h; exact absurd h (by simp)
    | raiseOther => rfl

theorem isAtomic_of_emit {pt : PyObj → Bool} {es : PyObj → PredResult} {v : PyObj}
    (h : classify pt es v = .emit) : isAtomic pt es v = true := by
  rw [isAtomic, h]

theorem dfsLeaves_of_atomic {pt : PyObj → Bool} {es : PyObj → PredResult} {v : PyObj}
    (h : isAtomic pt es v = true) : dfsLeaves pt es v = [v] := by
  cases v with
  | atom i => simp [dfsLeaves]
  | strv s => simp [dfsLeaves]
  | coll xs => rw [dfsLeaves, if_pos h]

theorem dfsLeaves_of_descend {pt : PyObj → Bool} {es : PyObj → PredResult} {v : PyObj}
    {xs : List PyObj} (h : classify pt es v = .descend xs) :
    dfsLeaves pt es v = dfsList pt es xs := by
  have hv := classify_descend h
  subst hv
  rw [dfsLeaves, if_neg]
  rw [isAtomic, h]
  simp

theorem isAtomic_atom (pt : PyObj → Bool) (es : PyObj → PredResult) (i : Nat) :
    isAtomic pt es (.atom i) = true := by
  rw [isAtomic]
  cases hc : classify pt es (.atom i) with
  | emit => rfl
  | raiseExc => rfl
  | descend xs => exact absurd (classify_descend hc) (by simp)

/-- C4: at end of input, literal-separator mode always emits a final field
built from the accumulator plus the residual window contents, even when it
is empty — in particular `isplit('', D)` yields exactly one empty field —
whereas whitespace mode emits a final field only when the accumulator is
non-empty, so `isplit('')` yields an empty sequence. -/
theorem isplit_end_of_input :
    (∀ sep ms chunk window sc, sepLoop sep ms [] chunk window sc = [chunk ++ window.elems]) ∧
    (∀ ms chunk sc, wsLoop ms [] chunk sc = if chunk.isEmpty then [] else [chunk]) ∧
    (∀ s : List Char, s ≠ [] → isplit (.str []) (.str s) .none = .ok [[]]) ∧
    isplit (.str []) .none .none = .ok [] := by
  refine ⟨fun sep ms chunk window sc => ?_, fun ms chunk sc => ?_, fun s hs => ?_, ?_⟩
  · rw [sepLoop]
  · rw [wsLoop]
  · have : s.isEmpty = false := by simpa [List.isEmpty_iff] using hs
    simp [isplit, isplitBody, this, sepLoop]
  · simp [isplit, isplitBody, wsLoop]

theorem isplit_end_of_input_witness :
    (['a', 'b'] : List Char) ≠ [] ∧ isplit (.str []) (.str ['a', 'b']) .none = .ok [[]] :=
  ⟨by simp, isplit_end_of_input.2.2.1 ['a', 'b'] (by simp)⟩

/-- C6: calling `isplit` raises nothing at construction (the generator only
stores its arguments); on first demand it raises `TypeError` for a non-text
`text`, `TypeError` for a supplied non-integer `maxsplit`, `TypeError` for a
supplied separator that is neither none nor text, `ValueError` for an
explicit empty separator, and no validation error otherwise. -/
theorem isplit_validation :
    (∀ t s m, isplitFirstPull (isplitCall t s m) = isplit t s m) ∧
    (∀ t s m, (∀ x, t ≠ PyVal.str x) → isplit t s m = .error .typeError) ∧
    (∀ x s m, m ≠ PyVal.none → (∀ k, m ≠ PyVal.int k) →
      isplit (.str x) s m = .error .typeError) ∧
    (∀ x s m, s ≠ PyVal.none → (∀ y, s ≠ PyVal.str y) →
      (m = PyVal.none ∨ ∃ k, m = PyVal.int k) → isplit (.str x) s m = .error .typeError) ∧
    (∀ x m, (m = PyVal.none ∨ ∃ k, m = PyVal.int k) →
      isplit (.str x) (.str []) m = .error .valueError) ∧
    (∀ x s m, (m = PyVal.none ∨ ∃ k, m = PyVal.int k) →
      (s = PyVal.none ∨ ∃ y, y ≠ [] ∧ s = PyVal.str y) →
      ∃ r, isplit (.str x) s m = .ok r) := by
  refine ⟨fun t s m => rfl, fun t s m ht => ?_, fun x s m h0 h1 => ?_,
    fun x s m hs0 hs1 hm => ?_, fun x m hm => ?_, fun x s m hm hs => ?_⟩
  · cases t with
    | str u => exact absurd rfl (ht u)
    | none => rfl
    | int n => rfl
    | other => rfl
  · cases m with
    | none => exact absurd rfl h0
    | int k => exact absurd rfl (h1 k)
    | str u => rfl
    | other => rfl
  · have hbody : isplitBody x s = fun _ => Except.error PyErr.typeError := by
      funext ms
      cases s with
      | none => exact absurd rfl hs0
      | str u => exact absurd rfl (hs1 u)
      | int n => rfl
      | other => rfl
    rcases hm with rfl | ⟨k, rfl⟩ <;> simp [isplit, hbody]
  · rcases hm with rfl | ⟨k, rfl⟩ <;> simp [isplit, isplitBody]
  · rcases hm with rfl | ⟨k, rfl⟩ <;> rcases hs with rfl | ⟨y, hy, rfl⟩
    · exact ⟨wsLoop (-1) x [] 0, rfl⟩
    · have hye : y.isEmpty = false := by simpa [List.isEmpty_iff] using hy
      exact ⟨sepLoop y (-1) x [] ⟨[], y.length + 1⟩ 0, by simp [isplit, isplitBody, hye]⟩
    · exact ⟨wsLoop k x [] 0, rfl⟩
    · have hye : y.isEmpty = false := by simpa [List.isEmpty_iff] using hy
      exact ⟨sepLoop y k x [] ⟨[], y.length + 1⟩ 0, by simp [isplit, isplitBody, hye]⟩

theorem isplit_validation_witness :
    ((∀ x, PyVal.int 7 ≠ PyVal.str x) ∧ isplit (.int 7) .none .none = .error .typeError) ∧
    isplit (.str ['a']) .none (.str ['z']) = .error .typeError ∧
    isplit (.str ['a']) .other (.int 2) = .error .typeError ∧
    isplit (.str ['a']) (.str []) .none = .error .valueError ∧
    ∃ r, isplit (.str ['a']) (.str ['b']) .none = .ok r :=
  ⟨⟨fun x => by simp, isplit_validation.2.1 (.int 7) .none .none (fun x => by simp)⟩,
    isplit_validation.2.2.1 ['a'] .none (.str ['z']) (by simp) (fun k => by simp),
    isplit_validation.2.2.2.1 ['a'] .other (.int 2) (by simp) (fun y => by simp)
      (Or.inr ⟨2, rfl⟩),
    isplit_validation.2.2.2.2.1 ['a'] .none (Or.inl rfl),
    isplit_validation.2.2.2.2.2 ['a'] (.str ['b']) .none (Or.inl rfl)
      (Or.inr ⟨['b'], by simp, rfl⟩)⟩

/-- C7: constructing the `flatten` call raises no error (it only stores the
arguments); for a non-iterable top-level argument the `TypeError` surfaces
on the first pull, when the body first runs. -/
theorem flatten_lazy_typeerror :
    (∀ pt es v, flattenFirstPull (flattenCall pt es v) = flatten pt es v) ∧
    (∀ pt es i, flatten pt es (.atom i) = ([], some .typeError)) :=
  ⟨fun pt es v => rfl, fun pt es i => rfl⟩

theorem flattenLoop_emit (pt : PyObj → Bool) (es : PyObj → PredResult)
    (stack : List (List PyObj)) (it : List PyObj) {v : PyObj}
    (h : classify pt es v = .emit) :
    flattenLoop pt es stack (v :: it) =
      (v :: (flattenLoop pt es stack it).1, (flattenLoop pt es stack it).2) := by
  rw [flattenLoop]
  split
  · rfl
  · rename_i heq; rw [h] at heq; exact absurd heq (by simp)
  · rename_i heq; rw [h] at heq; exact absurd heq (by simp)

theorem flattenLoop_raise (pt : PyObj → Bool) (es : PyObj → PredResult)
    (stack : List (List PyObj)) (it : List PyObj) {v : PyObj}
    (h : classify pt es v = .raiseExc) :
    flattenLoop pt es stack (v :: it) = ([], some .other) := by
  rw [flattenLoop]
  split
  · rename_i heq; rw [h] at heq; exact absurd heq (by simp)
  · rfl
  · rename_i heq; rw [h] at heq; exact absurd heq (by simp)

theorem flattenLoop_descend (pt : PyObj → Bool) (es : PyObj → PredResult)
    (stack : List (List PyObj)) (it : List PyObj) {v : PyObj} {xs : List PyObj}
    (h : classify pt es v = .descend xs) :
    flattenLoop pt es stack (v :: it) = flattenLoop pt es (it :: stack) xs := by
  rw [flattenLoop]
  split
  · rename_i heq; rw [h] at heq; exact absurd heq (by simp)
  · rename_i heq; rw [h] at heq; exact absurd heq (by simp)
  · rename_i ys heq
    rw [h] at heq
    injection heq with h2
    rw [h2]

theorem flattenLoop_pop (pt : PyObj → Bool) (es : PyObj → PredResult)
    (it : List PyObj) (stack : List (List PyObj)) :
    flattenLoop pt es (it :: stack) [] = flattenLoop pt es stack it := by
  rw [flattenLoop]

theorem flattenLoop_done (pt : PyObj → Bool) (es : PyObj → PredResult) :
    flattenLoop pt es [] [] = ([], Option.none) := by
  rw [flattenLoop]

/-- C3: a text value pulled during traversal is emitted as-is, whatever the
protection configuration; in particular the nested-strings example flattens
to the four strings, none of them decomposed into characters. -/
theorem flatten_text_protected :
    (∀ (pt : PyObj → Bool) (es : PyObj → PredResult) stack it s,
      flattenLoop pt es stack (.strv s :: it) =
        (PyObj.strv s :: (flattenLoop pt es stack it).1, (flattenLoop pt es stack it).2)) ∧
    flatten (fun _ => false) (fun _ => .val false)
        (.coll [.strv ['a'],
          .coll [.strv ['s','e','q','u','e','n','c','e'],
            .coll [.strv ['o','f']], .strv ['s','t','r','i','n','g','s']]]) =
      ([.strv ['a'], .strv ['s','e','q','u','e','n','c','e'], .strv ['o','f'],
        .strv ['s','t','r','i','n','g','s']], Option.none) := by
  constructor
  · intro pt es stack it s
    exact flattenLoop_emit pt es stack it (classify_strv pt es s)
  · simp [flatten, flattenLoop, classify, isStr]

theorem flattenLoop_all_emit (pt : PyObj → Bool) (es : PyObj → PredResult) :
    ∀ l : List PyObj, (∀ v ∈ l, classify pt es v = .emit) →
      flattenLoop pt es [] l = (l, Option.none) := by
  intro l
  induction l with
  | nil => intro h; rw [flattenLoop]
  | cons v vs ih =>
    intro h
    rw [flattenLoop_emit pt es [] vs (h v (List.mem_cons_self v vs))]
    rw [ih (fun x hx => h x (List.mem_cons_of_mem v hx))]

/-- C9: a text value as the top-level argument is iterated directly, so
`flatten(s)` for a string `s` yields the characters of `s` one by one (each
as a one-character string), for every protection configuration. -/
theorem flatten_top_level_string (pt : PyObj → Bool) (es : PyObj → PredResult)
    (s : List Char) :
    flatten pt es (.strv s) = (s.map (fun ch => PyObj.strv [ch]), Option.none) := by
  show flattenLoop pt es [] _ = _
  apply flattenLoop_all_emit
  intro v hv
  obtain ⟨ch, hch, rfl⟩ := List.mem_map.mp hv
  exact classify_strv pt es [ch]

/-- C10: when `enforce_scalar` raises a `TypeError` or `ValueError` on a
pulled value (that the type-based protection did not already claim), the
value is emitted as-is and the exception is not seen by the consumer; an
exception of any other kind propagates and ends the sequence. -/
theorem flatten_predicate_exceptions :
    (∀ (pt : PyObj → Bool) (es : PyObj → PredResult) stack it v,
      (isStr v || pt v) = false → es v = .raiseTV →
      flattenLoop pt es stack (v :: it) =
        (v :: (flattenLoop pt es stack it).1, (flattenLoop pt es stack it).2)) ∧
    (∀ (pt : PyObj → Bool) (es : PyObj → PredResult) stack it v,
      (isStr v || pt v) = false → es v = .raiseOther →
      flattenLoop pt es stack (v :: it) = ([], some .other)) := by
  constructor
  · intro pt es stack it v h0 h1
    exact flattenLoop_emit pt es stack it (by simp [classify, h0, h1])
  · intro pt es stack it v h0 h1
    exact flattenLoop_raise pt es stack it (by simp [classify, h0, h1])

theorem flatten_predicate_exceptions_witness :
    ((isStr (.atom 0) || (fun _ : PyObj => false) (.atom 0)) = false ∧
      flattenLoop (fun _ => false) (fun _ => PredResult.raiseTV) [] [.atom 0] =
        ([.atom 0], Option.none)) ∧
    flattenLoop (fun _ => false) (fun _ => PredResult.raiseOther) [] [.atom 0] =
      ([], some .other) := by
  refine ⟨⟨by simp [isStr], ?_⟩, ?_⟩
  · rw [flatten_predicate_exceptions.1 (fun _ => false) (fun _ => PredResult.raiseTV) [] []
      (.atom 0) (by simp [isStr]) rfl]
    rw [flattenLoop_done]
  · exact flatten_predicate_exceptions.2 (fun _ => false) (fun _ => PredResult.raiseOther) [] []
      (.atom 0) (by simp [isStr]) rfl

theorem flattenLoop_dfs (pt : PyObj → Bool) (es : PyObj → PredResult)
    (hes : ∀ v, es v ≠ PredResult.raiseOther) :
    ∀ (N : Nat) (stack : List (List PyObj)) (cur : List PyObj),
      sizeOf stack + sizeOf cur ≤ N →
      flattenLoop pt es stack cur =
        (dfsList pt es cur ++ dfsStack pt es stack, Option.none) := by
  intro N
  induction N using Nat.strong_induction_on with
  | _ N ih =>
    intro stack cur hN
    match stack, cur with
    | [], [] =>
      rw [flattenLoop_done]
      simp [dfsList, dfsStack]
    | it :: stack', [] =>
      rw [flattenLoop_pop]
      have hlt : sizeOf stack' + sizeOf it < N := by
        simp only [List.cons.sizeOf_spec, List.nil.sizeOf_spec] at hN
        omega
      rw [ih _ hlt stack' it le_rfl]
      simp [dfsList, dfsStack]
    | stack, thing :: it =>
      cases hc : classify pt es thing with
      | emit =>
        rw [flattenLoop_emit pt es stack it hc]
        have hlt : sizeOf stack + sizeOf it < N := by
          have h1 : (1 : Nat) ≤ sizeOf thing := by cases thing <;> simp_arith
          simp only [List.cons.sizeOf_spec] at hN
          omega
        rw [ih _ hlt stack it le_rfl]
        simp [dfsList, dfsLeaves_of_atomic (isAtomic_of_emit hc)]
      | raiseExc => exact absurd (classify_raiseExc_inv hc) (hes thing)
      | descend xs =>
        rw [flattenLoop_descend pt es stack it hc]
        have hthing := classify_descend hc
        have hlt : sizeOf (it :: stack) + sizeOf xs < N := by
          subst hthing
          simp only [List.cons.sizeOf_spec, PyObj.coll.sizeOf_spec] at hN ⊢
          omega
        rw [ih _ hlt (it :: stack) xs le_rfl]
        rw [dfsList, dfsLeaves_of_descend hc, dfsStack]
        simp [dfsList]

theorem dfsList_atoms (pt : PyObj → Bool) (es : PyObj → PredResult) :
    ∀ ids : List Nat, dfsList pt es (ids.map PyObj.atom) = ids.map PyObj.atom := by
  intro ids
  induction ids with
  | nil => rw [List.map_nil, dfsList]
  | cons i is ih =>
    rw [List.map_cons, dfsList, dfsLeaves_of_atomic (isAtomic_atom pt es i), ih]
    rfl

/-- C2: for every protection configuration (whose predicate, being a
predicate, raises no foreign exception), the output of `flatten` is exactly
the sequence of atomic values of the nested structure read in strict
left-to-right, depth-first order; consequently an already-flat sequence of
scalars is reproduced unchanged, in order. -/
theorem flatten_dfs_order (pt : PyObj → Bool) (es : PyObj → PredResult)
    (hes : ∀ v, es v ≠ PredResult.raiseOther) :
    (∀ xs, flatten pt es (.coll xs) = (dfsList pt es xs, Option.none)) ∧
    (∀ ids : List Nat, flatten pt es (.coll (ids.map PyObj.atom)) =
      (ids.map PyObj.atom, Option.none)) := by
  have hmain : ∀ xs, flatten pt es (.coll xs) = (dfsList pt es xs, Option.none) := by
    intro xs
    show flattenLoop pt es [] xs = _
    rw [flattenLoop_dfs pt es hes (sizeOf ([] : List (List PyObj)) + sizeOf xs) [] xs le_rfl]
    simp [dfsStack]
  exact ⟨hmain, fun ids => by rw [hmain (ids.map PyObj.atom), dfsList_atoms]⟩

theorem flatten_dfs_order_witness :
    (∀ v : PyObj, (fun _ : PyObj => PredResult.val false) v ≠ PredResult.raiseOther) ∧
    flatten (fun _ => false) (fun _ => PredResult.val false)
        (.coll [.coll [.atom 1, .atom 2], .coll [.atom 3, .coll [.atom 4], .atom 5], .atom 6]) =
      ([.atom 1, .atom 2, .atom 3, .atom 4, .atom 5, .atom 6], Option.none) := by
  refine ⟨fun v => by simp, ?_⟩
  rw [(flatten_dfs_order (fun _ => false) (fun _ => PredResult.val false)
    (fun v => by simp)).1]
  simp [dfsList, dfsLeaves, isAtomic, classify, isStr]

theorem sepIngest_conserves (window : Deque) (chunk : List Char) (c : Char)
    (hlen : window.elems.length < window.maxlen) :
    (dequeAppend window c).elems = window.elems ++ [c] ∧
    ((sepIngest window chunk c).1 ++ (sepIngest window chunk c).2.elems
        = chunk ++ window.elems ++ [c] ∧
      (sepIngest window chunk c).2.elems.length ≤ window.maxlen - 1 ∧
      (sepIngest window chunk c).2.maxlen = window.maxlen) := by
  have hda : dequeAppend window c = ⟨window.elems ++ [c], window.maxlen⟩ := by
    rw [dequeAppend, if_neg (by omega)]
  refine ⟨by rw [hda], ?_⟩
  rw [sepIngest]
  simp only [hda]
  by_cases hfull : (window.elems ++ [c]).length = window.maxlen
  · rw [if_pos hfull]
    refine ⟨?_, ?_, rfl⟩
    · show chunk ++ (window.elems ++ [c]).take 1 ++ (window.elems ++ [c]).tail = _
      rw [List.append_assoc, ← List.drop_one, List.take_append_drop, List.append_assoc]
    · show ((window.elems ++ [c]).tail).length ≤ window.maxlen - 1
      simp only [List.length_tail, List.length_append, List.length_cons,
        List.length_nil] at hfull ⊢
      omega
  · rw [if_neg hfull]
    refine ⟨by simp, ?_, rfl⟩
    show (window.elems ++ [c]).length ≤ window.maxlen - 1
    simp only [List.length_append, List.length_cons, List.length_nil] at hfull ⊢
    omega

/-- Each scanning step of the literal-separator loop is indeed a recursive
call of `sepLoop`: a `scan` step leaves the output unchanged, an `emit`
step yields exactly one field. -/
theorem sepStepRel_sepLoop (sep : List Char) (ms : Int) {s s' : SepState}
    (h : SepStepRel sep ms s s') :
    sepLoop sep ms s.rest s.chunk s.window s.sc =
        sepLoop sep ms s'.rest s'.chunk s'.window s'.sc ∨
      ∃ f, sepLoop sep ms s.rest s.chunk s.window s.sc =
        f :: sepLoop sep ms s'.rest s'.chunk s'.window s'.sc := by
  cases h with
  | scan c rest chunk window sc hne =>
    left
    rw [sepLoop]
    simp only [if_neg hne]
  | emit c rest chunk window sc heq hsc =>
    right
    refine ⟨(sepIngest window chunk c).1, ?_⟩
    rw [sepLoop]
    simp only [if_pos heq, if_neg hsc]

/-- C8: along every scanning step of the literal-separator loop, the window
(sized to the separator length plus one) holds at most `len(sep)` characters
between steps, the deque append inside a step therefore never silently
discards anything and peaks at `len(sep) + 1` characters, and the character
evicted from the front when that bound is reached lands in the accumulator:
accumulator plus window always receive exactly the consumed character. -/
theorem sep_window_invariant (sep : List Char) (ms : Int) (t : List Char) (s : SepState)
    (hr : Relation.ReflTransGen (SepStepRel sep ms) ⟨t, [], ⟨[], sep.length + 1⟩, 0⟩ s) :
    (s.window.maxlen = sep.length + 1 ∧ s.window.elems.length ≤ sep.length) ∧
    ∀ chunk c,
      (dequeAppend s.window c).elems = s.window.elems ++ [c] ∧
      (dequeAppend s.window c).elems.length ≤ sep.length + 1 ∧
      (sepIngest s.window chunk c).1 ++ (sepIngest s.window chunk c).2.elems
        = chunk ++ s.window.elems ++ [c] := by
  have hinv : s.window.maxlen = sep.length + 1 ∧ s.window.elems.length ≤ sep.length := by
    induction hr with
    | refl => exact ⟨rfl, by simp⟩
    | tail hab hbc ih =>
      rename_i b cst
      obtain ⟨ihm, ihl⟩ := ih
      cases hbc with
      | scan c rest chunk window sc hne =>
        dsimp only at ihm ihl ⊢
        obtain ⟨hcons, hlen2, hmax2⟩ := (sepIngest_conserves window chunk c (by omega)).2
        rw [ihm] at hlen2
        exact ⟨by rw [hmax2, ihm], by omega⟩
      | emit c rest chunk window sc heq hsc =>
        dsimp only at ihm ihl ⊢
        obtain ⟨hcons, hlen2, hmax2⟩ := (sepIngest_conserves window chunk c (by omega)).2
        exact ⟨by rw [hmax2, ihm], by simp⟩
  refine ⟨hinv, fun chunk c => ?_⟩
  obtain ⟨hm, hl⟩ := hinv
  have hc := sepIngest_conserves s.window chunk c (by omega)
  refine ⟨hc.1, ?_, hc.2.1⟩
  rw [hc.1]
  simp only [List.length_append, List.length_cons, List.length_nil]
  omega

theorem sep_window_invariant_witness :
    ((SepState.mk ['x'] [] ⟨[], 3⟩ 0).window.maxlen = ['a', 'b'].length + 1 ∧
      (SepState.mk ['x'] [] ⟨[], 3⟩ 0).window.elems.length ≤ ['a', 'b'].length) :=
  (sep_window_invariant ['a', 'b'] (-1) ['x'] _ Relation.ReflTransGen.refl).1

/-! ### Refinement of the eager split: whitespace mode -/

theorem specSplitWs_of_nil {n : Int} {t : List Char} (h : t.dropWhile isspace = []) :
    specSplitWs n t = [] := by
  rw [specSplitWs, dif_pos h]

theorem specSplitWs_of_zero {t : List Char} (h : t.dropWhile isspace ≠ []) :
    specSplitWs 0 t = [t.dropWhile isspace] := by
  rw [specSplitWs, dif_neg h, if_pos rfl]

theorem specSplitWs_of_step {n : Int} {t : List Char} (h : t.dropWhile isspace ≠ [])
    (hn : n ≠ 0) :
    specSplitWs n t =
      (t.dropWhile isspace).takeWhile (fun x => !(isspace x)) ::
        specSplitWs (n - 1) ((t.dropWhile isspace).dropWhile (fun x => !(isspace x))) := by
  rw [specSplitWs, dif_neg h, if_neg hn]

theorem specSplitWs_congr {t₁ t₂ : List Char} (n : Int)
    (h : t₁.dropWhile isspace = t₂.dropWhile isspace) :
    specSplitWs n t₁ = specSplitWs n t₂ := by
  conv_lhs => rw [specSplitWs]
  conv_rhs => rw [specSplitWs]
  simp only [h]

theorem takeWhile_all {p : Char → Bool} :
    ∀ {l : List Char}, (∀ x ∈ l, p x = true) → l.takeWhile p = l := by
  intro l
  induction l with
  | nil => intro h; rfl
  | cons a l ih =>
    intro h
    rw [List.takeWhile_cons_of_pos (h a (List.mem_cons_self a l))]
    rw [ih (fun x hx => h x (List.mem_cons_of_mem a hx))]

theorem dropWhile_all {p : Char → Bool} :
    ∀ {l : List Char}, (∀ x ∈ l, p x = true) → l.dropWhile p = [] := by
  intro l
  induction l with
  | nil => intro h; rfl
  | cons a l ih =>
    intro h
    rw [List.dropWhile_cons_of_pos (h a (List.mem_cons_self a l))]
    exact ih (fun x hx => h x (List.mem_cons_of_mem a hx))

/-- Mid-scan correspondence for whitespace mode: with a (whitespace-free)
accumulator `chunk` and split counter `sc`, the loop produces the eager
whitespace split of the pending text with `ms - sc` splits left. -/
theorem wsLoop_eq_spec (ms : Int) :
    ∀ (t chunk : List Char) (sc : Int), (∀ x ∈ chunk, isspace x = false) →
      wsLoop ms t chunk sc = specSplitWs (ms - sc) (chunk ++ t) := by
  intro t
  induction t with
  | nil =>
    intro chunk sc hch
    cases chunk with
    | nil =>
      rw [wsLoop]
      simp only [List.append_nil]
      rw [specSplitWs_of_nil (by simp)]
      simp
    | cons k ks =>
      rw [wsLoop]
      simp only [List.append_nil]
      have hk : isspace k = false := hch k (List.mem_cons_self k ks)
      have hdw : (k :: ks).dropWhile isspace = k :: ks :=
        List.dropWhile_cons_of_neg (by simp [hk])
      have hne : (k :: ks).dropWhile isspace ≠ [] := by rw [hdw]; simp
      by_cases hn : ms - sc = 0
      · rw [hn, specSplitWs_of_zero hne, hdw]
        simp
      · rw [specSplitWs_of_step hne hn, hdw]
        rw [takeWhile_all (fun x hx => by simp [hch x hx])]
        rw [dropWhile_all (fun x hx => by simp [hch x hx])]
        rw [specSplitWs_of_nil (by simp)]
        simp
  | cons c rest ih =>
    intro chunk sc hch
    rw [wsLoop]
    cases hc : isspace c with
    | false =>
      rw [if_pos (by simp [hc])]
      rw [ih (chunk ++ [c]) sc ?hall]
      case hall =>
        intro x hx
        rcases List.mem_append.mp hx with h | h
        · exact hch x h
        · simp at h; subst h; exact hc
      rw [List.append_cons chunk c rest]
    | true =>
      rw [if_neg (by simp [hc])]
      cases chunk with
      | nil =>
        rw [if_neg (by simp)]
        rw [ih [] sc (by simp)]
        simp only [List.nil_append]
        exact (specSplitWs_congr _ (List.dropWhile_cons_of_pos (by simp [hc]))).symm
      | cons k ks =>
        rw [if_pos (by simp)]
        have hk : isspace k = false := hch k (List.mem_cons_self k ks)
        have hdw : ((k :: ks) ++ c :: rest).dropWhile isspace = (k :: ks) ++ c :: rest := by
          rw [List.cons_append]
          exact List.dropWhile_cons_of_neg (by simp [hk])
        by_cases hsc : sc = ms
        · rw [if_pos hsc]
          rw [wsLoop]
          have hn0 : ms - sc = 0 := by omega
          rw [hn0, specSplitWs_of_zero (by rw [hdw]; simp), hdw]
          simp
        · rw [if_neg hsc]
          rw [ih [] (sc + 1) (by simp)]
          have hall : ∀ x ∈ k :: ks, (!(isspace x)) = true := fun x hx => by simp [hch x hx]
          have hn : ms - sc ≠ 0 := by omega
          rw [specSplitWs_of_step (by rw [hdw]; simp) hn, hdw]
          rw [List.takeWhile_append_of_pos hall, List.dropWhile_append_of_pos hall]
          rw [List.takeWhile_cons_of_neg (by simp [hc]), List.dropWhile_cons_of_neg (by simp [hc])]
          rw [List.append_nil]
          simp only [List.nil_append]
          rw [show ms - (sc + 1) = ms - sc - 1 by omega]
          rw [(specSplitWs_congr (ms - sc - 1) (List.dropWhile_cons_of_pos hc)).symm]

/-! ### Refinement of the eager split: literal-separator mode -/

theorem consHd_nil (l : List (List Char)) : consHd [] l = l := by
  cases l with
  | nil => rfl
  | cons f fs => simp [consHd]

theorem findSplit_none_short (sep : List Char) :
    ∀ t : List Char, t.length ≤ sep.length → t ≠ sep → findSplit sep t = Option.none := by
  intro t
  induction t with
  | nil => intro h hne; rw [findSplit]
  | cons c rest ih =>
    intro hlen hne
    rw [findSplit]
    have hp : ¬ sep.isPrefixOf (c :: rest) = true := by
      intro h
      have hp' : sep <+: c :: rest := List.isPrefixOf_iff_prefix.mp h
      exact hne (hp'.eq_of_length_le (by simpa using hlen)).symm
    rw [if_neg hp]
    have h1 : rest.length ≤ sep.length := by
      simp only [List.length_cons] at hlen; omega
    have h2 : rest ≠ sep := by
      intro h
      rw [h] at hlen
      simp only [List.length_cons] at hlen
      omega
    rw [ih h1 h2]

theorem findSplit_at_zero (sep : List Char) (hs : sep ≠ []) (z : List Char) :
    findSplit sep (sep ++ z) = some ([], z) := by
  cases sep with
  | nil => exact absurd rfl hs
  | cons a b =>
    rw [List.cons_append, findSplit]
    rw [if_pos ?hp]
    case hp =>
      rw [← List.cons_append]
      exact List.isPrefixOf_iff_prefix.mpr ⟨z, rfl⟩
    rw [show a :: (b ++ z) = (a :: b) ++ z from by rw [List.cons_append]]
    rw [List.drop_left]

theorem findSplit_cons_no_match (sep : List Char) (c : Char) (t : List Char)
    (h : ¬ sep.isPrefixOf (c :: t) = true) :
    findSplit sep (c :: t) =
      match findSplit sep t with
      | some (pre, post) => some (c :: pre, post)
      | Option.none => Option.none := by
  rw [findSplit, if_neg h]

theorem no_sep_start_of_ne (sep w : List Char) (hlen : w.length = sep.length) (hne : w ≠ sep)
    (z : List Char) : ¬ sep.isPrefixOf (w ++ z) = true := by
  intro h
  have hp : sep <+: w ++ z := List.isPrefixOf_iff_prefix.mp h
  have h2 : sep = (w ++ z).take sep.length := List.prefix_iff_eq_take.mp hp
  rw [← hlen, List.take_left] at h2
  exact hne h2.symm

theorem specSplitSep_of_zero (sep : List Char) (t : List Char) :
    specSplitSep sep 0 t = [t] := by
  rw [specSplitSep, if_pos (Or.inr rfl)]

theorem specSplitSep_of_none {sep t : List Char} {n : Int} (hsE : sep.isEmpty = false)
    (hn : n ≠ 0) (h : findSplit sep t = Option.none) : specSplitSep sep n t = [t] := by
  rw [specSplitSep, if_neg (by simp [hsE, hn]), dif_neg (by rw [h]; simp)]

theorem specSplitSep_of_some {sep t pre post : List Char} {n : Int}
    (hsE : sep.isEmpty = false) (hn : n ≠ 0) (h : findSplit sep t = some (pre, post)) :
    specSplitSep sep n t = pre :: specSplitSep sep (n - 1) post := by
  rw [specSplitSep, if_neg (by simp [hsE, hn]), dif_pos (by rw [h]; rfl)]
  simp only [h, Option.get_some]

theorem consHd_shift (sep : List Char) (hsE : sep.isEmpty = false) (n : Int)
    (chunk : List Char) (w0 : Char) (X : List Char)
    (hnp : ¬ sep.isPrefixOf (w0 :: X) = true) :
    consHd (chunk ++ [w0]) (specSplitSep sep n X) =
      consHd chunk (specSplitSep sep n (w0 :: X)) := by
  by_cases hn : n = 0
  · subst hn
    rw [specSplitSep_of_zero, specSplitSep_of_zero]
    simp [consHd]
  · have hstep := findSplit_cons_no_match sep w0 X hnp
    cases hfx : findSplit sep X with
    | none =>
      simp only [hfx] at hstep
      rw [specSplitSep_of_none hsE hn hfx, specSplitSep_of_none hsE hn hstep]
      simp [consHd]
    | some pp =>
      obtain ⟨pre, post⟩ := pp
      simp only [hfx] at hstep
      rw [specSplitSep_of_some hsE hn hfx, specSplitSep_of_some hsE hn hstep]
      simp [consHd]

theorem sepIngest_full_cons (sep : List Char) (chunk : List Char) (w0 : Char)
    (wtail : List Char) (c : Char) (hlen : (w0 :: wtail).length = sep.length) :
    sepIngest ⟨w0 :: wtail, sep.length + 1⟩ chunk c
      = (chunk ++ [w0], ⟨wtail ++ [c], sep.length + 1⟩) := by
  have hne : ¬ ((w0 :: wtail).length = sep.length + 1) := by omega
  have hfull : ((w0 :: wtail) ++ [c]).length = sep.length + 1 := by
    rw [List.length_append, hlen]
    rfl
  rw [sepIngest]
  simp only [dequeAppend, if_neg hne]
  rw [if_pos hfull]
  rw [List.cons_append]
  simp

theorem sepIngest_room (sep : List Char) (chunk : List Char) (window : List Char) (c : Char)
    (hlen : window.length < sep.length) :
    sepIngest ⟨window, sep.length + 1⟩ chunk c = (chunk, ⟨window ++ [c], sep.length + 1⟩) := by
  have hne : ¬ (window.length = sep.length + 1) := by omega
  have hne2 : ¬ ((window ++ [c]).length = sep.length + 1) := by
    rw [List.length_append]
    simp only [List.length_cons, List.length_nil]
    omega
  rw [sepIngest]
  simp only [dequeAppend, if_neg hne]
  rw [if_neg hne2]

/-- Mid-scan correspondence for literal-separator mode: with accumulator
`chunk`, split counter `sc` and a window shorter than the separator or not
yet equal to it, the loop produces the eager separator split of the window
contents plus the pending text with `ms - sc` splits left, glued onto the
accumulator. -/
theorem sepLoop_eq_spec (sep : List Char) (hs : sep ≠ []) (ms : Int) :
    ∀ (t chunk window : List Char) (sc : Int),
      window.length ≤ sep.length → window ≠ sep →
      sepLoop sep ms t chunk ⟨window, sep.length + 1⟩ sc =
        consHd chunk (specSplitSep sep (ms - sc) (window ++ t)) := by
  have hsE : sep.isEmpty = false := by simpa [List.isEmpty_iff] using hs
  intro t
  induction t with
  | nil =>
    intro chunk window sc hlen hne
    rw [sepLoop]
    simp only [List.append_nil]
    by_cases hn : ms - sc = 0
    · rw [hn, specSplitSep_of_zero]
      simp [consHd]
    · rw [specSplitSep_of_none hsE hn (findSplit_none_short sep window hlen hne)]
      simp [consHd]
  | cons c rest ih =>
    intro chunk window sc hlen hne
    rw [sepLoop]
    by_cases hfull : window.length = sep.length
    · obtain ⟨w0, wtail, rfl⟩ : ∃ w0 wtail, window = w0 :: wtail := by
        cases window with
        | nil =>
          exfalso
          have : sep = [] := by
            cases sep with
            | nil => rfl
            | cons a b => simp at hfull
          exact hs this
        | cons a b => exact ⟨a, b, rfl⟩
      simp only [sepIngest_full_cons sep chunk w0 wtail c hfull]
      by_cases hmatch : wtail ++ [c] = sep
      · by_cases hsc : sc = ms
        · rw [if_pos hmatch, if_pos hsc]
          rw [sepLoop]
          rw [show ms - sc = 0 from by omega, specSplitSep_of_zero]
          simp [consHd]
        · rw [if_pos hmatch, if_neg hsc]
          rw [ih [] [] (sc + 1) (by simp) (Ne.symm hs)]
          rw [consHd_nil]
          have hfind : findSplit sep ((w0 :: wtail) ++ c :: rest) = some ([w0], rest) := by
            have heq1 : (w0 :: wtail) ++ c :: rest = w0 :: (sep ++ rest) := by
              rw [← hmatch]; simp
            rw [heq1]
            rw [findSplit_cons_no_match sep w0 (sep ++ rest) ?np]
            case np =>
              have heq2 : w0 :: (sep ++ rest) = (w0 :: wtail) ++ ([c] ++ rest) := by
                rw [← hmatch]; simp
              rw [heq2]
              exact no_sep_start_of_ne sep (w0 :: wtail) hfull hne ([c] ++ rest)
            rw [findSplit_at_zero sep hs rest]
          rw [specSplitSep_of_some hsE (by omega) hfind]
          rw [show ms - sc - 1 = ms - (sc + 1) from by omega]
          simp [consHd]
      · rw [if_neg hmatch]
        rw [ih (chunk ++ [w0]) (wtail ++ [c]) sc ?len hmatch]
        case len =>
          rw [List.length_append]
          simp only [List.length_cons, List.length_nil] at hfull ⊢
          omega
        rw [consHd_shift sep hsE (ms - sc) chunk w0 ((wtail ++ [c]) ++ rest) ?np]
        case np =>
          have heq2 : w0 :: ((wtail ++ [c]) ++ rest) = (w0 :: wtail) ++ ([c] ++ rest) := by
            simp
          rw [heq2]
          exact no_sep_start_of_ne sep (w0 :: wtail) hfull hne ([c] ++ rest)
        rw [show w0 :: ((wtail ++ [c]) ++ rest) = (w0 :: wtail) ++ c :: rest from by simp]
    · rw [sepIngest_room sep chunk window c (by omega)]
      by_cases hmatch : window ++ [c] = sep
      · by_cases hsc : sc = ms
        · rw [if_pos hmatch, if_pos hsc]
          rw [sepLoop]
          rw [show ms - sc = 0 from by omega, specSplitSep_of_zero]
          simp [consHd]
        · rw [if_pos hmatch, if_neg hsc]
          rw [ih [] [] (sc + 1) (by simp) (Ne.symm hs)]
          rw [consHd_nil]
          have hfind : findSplit sep (window ++ c :: rest) = some ([], rest) := by
            rw [show window ++ c :: rest = sep ++ rest from by rw [← hmatch]; simp]
            exact findSplit_at_zero sep hs rest
          rw [specSplitSep_of_some hsE (by omega) hfind]
          rw [show ms - sc - 1 = ms - (sc + 1) from by omega]
          simp [consHd]
      · rw [if_neg hmatch]
        rw [ih chunk (window ++ [c]) sc ?len hmatch]
        case len =>
          rw [List.length_append]
          simp only [List.length_cons, List.length_nil]
          omega
        rw [show (window ++ [c]) ++ rest = window ++ c :: rest from by simp]

/-- C1: for every text, every valid separator (none or non-empty) and every
valid limit (none or an integer), the fields produced by `isplit` are
exactly those of the eager split operation; in particular the example pairs
`isplit('aaaaa', 'aa') = ['', '', 'a']` and
`isplit('aaaaa', 'aa', 1) = ['', 'aaa']` hold. -/
theorem isplit_eq_eager :
    (∀ (t : List Char) (d : Option (List Char)) (n : Option Int),
      (∀ s, d = some s → s ≠ []) →
      isplit (.str t) (pySep d) (pyMax n) = .ok (specSplit d (msOf n) t)) ∧
    isplit (.str ['a', 'a', 'a', 'a', 'a']) (.str ['a', 'a']) .none = .ok [[], [], ['a']] ∧
    isplit (.str ['a', 'a', 'a', 'a', 'a']) (.str ['a', 'a']) (.int 1) =
      .ok [[], ['a', 'a', 'a']] := by
  have hmain : ∀ (t : List Char) (d : Option (List Char)) (n : Option Int),
      (∀ s, d = some s → s ≠ []) →
      isplit (.str t) (pySep d) (pyMax n) = .ok (specSplit d (msOf n) t) := by
    intro t d n hd
    have hms : ∀ m : Int, isplitBody t (pySep d) m = .ok (specSplit d m t) := by
      intro m
      cases d with
      | none =>
        show Except.ok (wsLoop m t [] 0) = _
        rw [wsLoop_eq_spec m t [] 0 (by simp)]
        simp only [List.nil_append, Int.sub_zero]
        rfl
      | some s =>
        have hsne : s ≠ [] := hd s rfl
        have hsE : s.isEmpty = false := by simpa [List.isEmpty_iff] using hsne
        show (if s.isEmpty = true then Except.error PyErr.valueError
          else .ok (sepLoop s m t [] ⟨[], s.length + 1⟩ 0)) = _
        rw [if_neg (by simp [hsE])]
        rw [sepLoop_eq_spec s hsne m t [] [] 0 (by simp) (Ne.symm hsne)]
        rw [consHd_nil]
        simp only [List.nil_append, Int.sub_zero]
        rfl
    cases n with
    | none => exact hms (-1)
    | some k => exact hms k
  refine ⟨hmain, ?_, ?_⟩
  · have h := hmain ['a', 'a', 'a', 'a', 'a'] (some ['a', 'a']) Option.none
      (fun s hsome => by cases hsome; decide)
    have e1 : specSplit (some ['a', 'a']) (msOf Option.none) ['a', 'a', 'a', 'a', 'a']
        = [[], [], ['a']] := by
      show specSplitSep ['a', 'a'] (-1) ['a', 'a', 'a', 'a', 'a'] = [[], [], ['a']]
      have hf1 : findSplit ['a', 'a'] ['a', 'a', 'a', 'a', 'a'] = some ([], ['a', 'a', 'a']) := by
        decide
      have hf2 : findSplit ['a', 'a'] ['a', 'a', 'a'] = some ([], ['a']) := by decide
      have hf3 : findSplit ['a', 'a'] ['a'] = Option.none := by decide
      rw [specSplitSep_of_some (by decide) (show (-1 : Int) ≠ 0 by decide) hf1]
      rw [specSplitSep_of_some (by decide) (show (-1 - 1 : Int) ≠ 0 by decide) hf2]
      rw [specSplitSep_of_none (by decide) (show (-1 - 1 - 1 : Int) ≠ 0 by decide) hf3]
    exact h.trans (congrArg Except.ok e1)
  · have h := hmain ['a', 'a', 'a', 'a', 'a'] (some ['a', 'a']) (some 1)
      (fun s hsome => by cases hsome; decide)
    have e2 : specSplit (some ['a', 'a']) (msOf (some 1)) ['a', 'a', 'a', 'a', 'a']
        = [[], ['a', 'a', 'a']] := by
      show specSplitSep ['a', 'a'] 1 ['a', 'a', 'a', 'a', 'a'] = [[], ['a', 'a', 'a']]
      have hf1 : findSplit ['a', 'a'] ['a', 'a', 'a', 'a', 'a'] = some ([], ['a', 'a', 'a']) := by
        decide
      rw [specSplitSep_of_some (by decide) (show (1 : Int) ≠ 0 by decide) hf1]
      rw [show (1 : Int) - 1 = 0 from by decide, specSplitSep_of_zero]
    exact h.trans (congrArg Except.ok e2)

theorem isplit_eq_eager_witness :
    (∀ s : List Char, (some ['a', 'b'] : Option (List Char)) = some s → s ≠ []) ∧
    isplit (.str ['x', 'a', 'b', 'y']) (pySep (some ['a', 'b'])) (pyMax Option.none) =
      .ok (specSplit (some ['a', 'b']) (msOf Option.none) ['x', 'a', 'b', 'y']) :=
  ⟨fun s hsome => by cases hsome; decide,
    isplit_eq_eager.1 ['x', 'a', 'b', 'y'] (some ['a', 'b']) Option.none
      (fun s hsome => by cases hsome; decide)⟩

/-! ### Negative split limits mean unlimited -/

theorem ws_step_length (t : List Char) (hr : t.dropWhile isspace ≠ []) :
    ((t.dropWhile isspace).dropWhile fun x => !(isspace x)).length < t.length := by
  have hle : (t.dropWhile isspace).length ≤ t.length :=
    (List.dropWhile_sublist isspace).length_le
  have hpos : 0 < (t.dropWhile isspace).length := List.length_pos.mpr hr
  have hhead : isspace ((t.dropWhile isspace).head hr) = false :=
    List.head_dropWhile_not isspace t hr
  have hcons : (t.dropWhile isspace).head hr :: (t.dropWhile isspace).tail
      = t.dropWhile isspace := List.head_cons_tail _ hr
  have h2 : ((t.dropWhile isspace).dropWhile fun x => !(isspace x)).length
      ≤ (t.dropWhile isspace).tail.length := by
    conv_lhs => rw [← hcons]
    rw [List.dropWhile_cons_of_pos (by simp [hhead])]
    exact (List.dropWhile_sublist _).length_le
  have h3 : (t.dropWhile isspace).tail.length = (t.dropWhile isspace).length - 1 :=
    List.length_tail _
  omega

theorem specSplitWs_neg_aux :
    ∀ (N : Nat) (m₁ m₂ : Int), m₁ < 0 → m₂ < 0 → ∀ t : List Char, t.length ≤ N →
      specSplitWs m₁ t = specSplitWs m₂ t := by
  intro N
  induction N with
  | zero =>
    intro m₁ m₂ h1 h2 t ht
    have hnil : t = [] := by
      cases t with
      | nil => rfl
      | cons a l => simp at ht
    subst hnil
    rw [specSplitWs_of_nil (by simp), specSplitWs_of_nil (by simp)]
  | succ N ihN =>
    intro m₁ m₂ h1 h2 t ht
    by_cases hr : t.dropWhile isspace = []
    · rw [specSplitWs_of_nil hr, specSplitWs_of_nil hr]
    · rw [specSplitWs_of_step hr (by omega), specSplitWs_of_step hr (by omega)]
      congr 1
      apply ihN (m₁ - 1) (m₂ - 1) (by omega) (by omega)
      have := ws_step_length t hr
      omega

theorem specSplitSep_neg_aux (sep : List Char) (hs : sep ≠ []) :
    ∀ (N : Nat) (m₁ m₂ : Int), m₁ < 0 → m₂ < 0 → ∀ t : List Char, t.length ≤ N →
      specSplitSep sep m₁ t = specSplitSep sep m₂ t := by
  have hsE : sep.isEmpty = false := by simpa [List.isEmpty_iff] using hs
  intro N
  induction N with
  | zero =>
    intro m₁ m₂ h1 h2 t ht
    have hnil : t = [] := by
      cases t with
      | nil => rfl
      | cons a l => simp at ht
    subst hnil
    rw [specSplitSep_of_none hsE (by omega) (by rw [findSplit]),
      specSplitSep_of_none hsE (by omega) (by rw [findSplit])]
  | succ N ihN =>
    intro m₁ m₂ h1 h2 t ht
    cases hf : findSplit sep t with
    | none =>
      rw [specSplitSep_of_none hsE (by omega) hf, specSplitSep_of_none hsE (by omega) hf]
    | some pp =>
      obtain ⟨pre, post⟩ := pp
      rw [specSplitSep_of_some hsE (by omega) hf, specSplitSep_of_some hsE (by omega) hf]
      congr 1
      apply ihN (m₁ - 1) (m₂ - 1) (by omega) (by omega)
      have := findSplit_post_lt sep hs t pre post hf
      omega

/-- C5: a negative `max_splits` is interpreted exactly like an omitted one:
for every text and valid separator, `isplit(T, D, n)` with `n < 0` produces
the same fields as `isplit(T, D, None)`. -/
theorem isplit_negative_unlimited (t : List Char) (d : PyVal)
    (hd : d = PyVal.none ∨ ∃ s, s ≠ [] ∧ d = PyVal.str s) (n : Int) (hn : n < 0) :
    isplit (.str t) d (.int n) = isplit (.str t) d .none := by
  rcases hd with rfl | ⟨s, hsne, rfl⟩
  · show Except.ok (wsLoop n t [] 0) = Except.ok (wsLoop (-1) t [] 0)
    rw [wsLoop_eq_spec n t [] 0 (by simp), wsLoop_eq_spec (-1) t [] 0 (by simp)]
    rw [specSplitWs_neg_aux ([] ++ t).length (n - 0) (-1 - 0) (by omega) (by omega)
      ([] ++ t) le_rfl]
  · have hsE : s.isEmpty = false := by simpa [List.isEmpty_iff] using hsne
    show (if s.isEmpty = true then Except.error PyErr.valueError
        else .ok (sepLoop s n t [] ⟨[], s.length + 1⟩ 0)) =
      (if s.isEmpty = true then Except.error PyErr.valueError
        else .ok (sepLoop s (-1) t [] ⟨[], s.length + 1⟩ 0))
    rw [if_neg (by simp [hsE]), if_neg (by simp [hsE])]
    rw [sepLoop_eq_spec s hsne n t [] [] 0 (by simp) (Ne.symm hsne)]
    rw [sepLoop_eq_spec s hsne (-1) t [] [] 0 (by simp) (Ne.symm hsne)]
    rw [specSplitSep_neg_aux s hsne ([] ++ t).length (n - 0) (-1 - 0) (by omega) (by omega)
      ([] ++ t) le_rfl]

theorem isplit_negative_unlimited_witness :
    isplit (.str ['a', ' ', 'b']) .none (.int (-5)) =
      isplit (.str ['a', ' ', 'b']) .none .none :=
  isplit_negative_unlimited ['a', ' ', 'b'] .none (Or.inl rfl) (-5) (by decide)

end A2M
